import Mathlib

/-!
# Verification of the pydelia DSP wrapper and engine specification

This development embeds, in Lean 4:

* the Python wrapper layer `pydelia/pydelia_wrapper.py` (argument defaulting,
  `isinstance` type validation, and pure pass-through calls into the native
  `_pydelia` extension), translated directly from the Python source; and
* the DSP engine itself (sine generation, DFT/inverse DFT, convolution,
  analysis windows, STFT).  The engine is compiled from Zig sources that are
  not part of this repository checkout, so the engine operations are modelled
  from the specification (each such definition is marked
  `Modelled from the spec:`), using exact real/complex arithmetic as the
  idealisation of the engine's floating-point arithmetic: an exact equality
  proved here implies the spec's numeric tolerance bounds (the error is 0).

Python values passed to the wrapper are modelled by `PyVal` (ints carry `ℤ`,
floats carry `ℚ` — every IEEE double is rational — and `str` stands for any
value of a non-numeric type).  Raising an exception is modelled by `Except`.
-/

/-- A Python value as seen by the wrapper's `isinstance` checks: an `int`,
a `float`, or a value of some other type (represented by `str`). -/
inductive PyVal where
  | int (i : ℤ)
  | float (q : ℚ)
  | str (s : String)
deriving DecidableEq

/-- `isinstance(v, int)` for the modelled value types. -/
def PyVal.isInt : PyVal → Bool
  | .int _ => true
  | _ => false

/-- `isinstance(v, float)` for the modelled value types. -/
def PyVal.isFloat : PyVal → Bool
  | .float _ => true
  | _ => false

/-- The keyword arguments accepted by `sine_wave(**kwargs)`: each of the four
recognised keys is either present (`some v`) or omitted (`none`). -/
structure SineKwargs where
  freq : Option PyVal := none
  amp : Option PyVal := none
  sr : Option PyVal := none
  dur : Option PyVal := none

/-- A Python exception raised by the wrapper layer. -/
inductive PyErr where
  | typeError (msg : String)
deriving DecidableEq

/-- The positional arguments the wrapper passes to `_pydelia.sine_wave`
once validation has succeeded. -/
structure SineArgs where
  freq : ℤ
  amp : ℚ
  sr : ℤ
  dur : ℚ
deriving DecidableEq

/-- The wrapper `sine_wave` from `pydelia_wrapper.py`, parameterised by the
engine function `_pydelia.sine_wave`: defaults are filled in with
`kwargs.get`, then `freq`, `amp`, `sr`, `dur` are `isinstance`-checked in
source order, and only in the fully validated branch is the engine invoked. -/
def sine_wave {R : Type} (engine : ℤ → ℚ → ℤ → ℚ → R) (kwargs : SineKwargs) :
    Except PyErr R :=
  let freq := kwargs.freq.getD (.int 440)
  let amp := kwargs.amp.getD (.float 1.0)
  let sr := kwargs.sr.getD (.int 44100)
  let dur := kwargs.dur.getD (.float 1.0)
  match freq with
  | .int f =>
    match amp with
    | .float a =>
      match sr with
      | .int s =>
        match dur with
        | .float d => .ok (engine f a s d)
        | _ => .error (.typeError "dur must be float")
      | _ => .error (.typeError "sr must be integer")
    | _ => .error (.typeError "amp must be float")
  | _ => .error (.typeError "freq must be integer")

/-- The validation stage of the wrapper `sine_wave`, in isolation: the same
defaulting and `isinstance` checks as `sine_wave`, but returning the record of
arguments that would be handed to `_pydelia.sine_wave` instead of calling it. -/
def sine_wave_args (kwargs : SineKwargs) : Except PyErr SineArgs :=
  let freq := kwargs.freq.getD (.int 440)
  let amp := kwargs.amp.getD (.float 1.0)
  let sr := kwargs.sr.getD (.int 44100)
  let dur := kwargs.dur.getD (.float 1.0)
  match freq with
  | .int f =>
    match amp with
    | .float a =>
      match sr with
      | .int s =>
        match dur with
        | .float d => .ok ⟨f, a, s, d⟩
        | _ => .error (.typeError "dur must be float")
      | _ => .error (.typeError "sr must be integer")
    | _ => .error (.typeError "amp must be float")
  | _ => .error (.typeError "freq must be integer")

/-- The native `_pydelia` extension module, as an abstract record of the ten
engine functions the wrapper forwards to (typed per the wrapper's own Python
type annotations). -/
structure Pydelia where
  fft : List ℝ → List ℂ
  ifft : List ℂ → List ℝ
  magnitude : List ℂ → List ℝ
  phase : List ℂ → List ℝ
  fft_convolve : List ℝ → List ℝ → List ℝ
  fft_frequencies : ℤ → ℤ → List ℝ
  decibels_from_magnitude : List ℝ → List ℝ
  blackman : List ℝ → List ℝ
  hanning : List ℝ → List ℝ
  stft : List ℝ → List (List ℝ)

/-- Wrapper `fft(vec)`: `return _pydelia.fft(vec)`. -/
def fft (_pydelia : Pydelia) (vec : List ℝ) : List ℂ :=
  _pydelia.fft vec

/-- Wrapper `ifft(vec)`: `return _pydelia.ifft(vec)`. -/
def ifft (_pydelia : Pydelia) (vec : List ℂ) : List ℝ :=
  _pydelia.ifft vec

/-- Wrapper `magnitude(vec)`: `return _pydelia.magnitude(vec)`. -/
def magnitude (_pydelia : Pydelia) (vec : List ℂ) : List ℝ :=
  _pydelia.magnitude vec

/-- Wrapper `phase(vec)`: `return _pydelia.phase(vec)`. -/
def phase (_pydelia : Pydelia) (vec : List ℂ) : List ℝ :=
  _pydelia.phase vec

/-- Wrapper `fft_convolve(vec1, vec2)`: `return _pydelia.fft_convolve(vec1, vec2)`. -/
def fft_convolve (_pydelia : Pydelia) (vec1 vec2 : List ℝ) : List ℝ :=
  _pydelia.fft_convolve vec1 vec2

/-- Wrapper `fft_frequencies(n, sr)`: `return _pydelia.fft_frequencies(n, sr)`. -/
def fft_frequencies (_pydelia : Pydelia) (n sr : ℤ) : List ℝ :=
  _pydelia.fft_frequencies n sr

/-- Wrapper `decibels_from_magnitude(vec)`: `return _pydelia.decibels_from_magnitude(vec)`. -/
def decibels_from_magnitude (_pydelia : Pydelia) (vec : List ℝ) : List ℝ :=
  _pydelia.decibels_from_magnitude vec

/-- Wrapper `blackman(vec)`: `return _pydelia.blackman(vec)`. -/
def blackman (_pydelia : Pydelia) (vec : List ℝ) : List ℝ :=
  _pydelia.blackman vec

/-- Wrapper `hanning(vec)`: `return _pydelia.hanning(vec)`. -/
def hanning (_pydelia : Pydelia) (vec : List ℝ) : List ℝ :=
  _pydelia.hanning vec

/-- Wrapper `stft(vec)`: `return _pydelia.stft(vec)`. -/
def stft (_pydelia : Pydelia) (vec : List ℝ) : List (List ℝ) :=
  _pydelia.stft vec

/-- An error raised by the DSP engine. -/
inductive DspError where
  | invalidLength
  | invalidArgument
deriving DecidableEq

noncomputable section EngineModel

namespace Delia

/-- Modelled from the spec: the engine `_pydelia.sine_wave` (absent from this
checkout, built from Zig sources).  Per the spec it produces
`N = round(sampleRate * duration)` samples `x[n] = amp * sin(2π·freq·n/sampleRate)`,
raising `InvalidArgument` for a non-positive sample rate or a negative
duration; `freq` may be any real and is not special-cased. -/
def sine_wave (freq amp sr dur : ℝ) : Except DspError (List ℝ) :=
  if sr ≤ 0 then .error .invalidArgument
  else if dur < 0 then .error .invalidArgument
  else .ok ((List.range (round (sr * dur)).toNat).map fun n : ℕ =>
    amp * Real.sin (2 * Real.pi * freq * (n : ℝ) / sr))

/-- Modelled from the spec: the coefficients of the Hanning window of length
`n` computed by the engine's window library,
`w[i] = 0.5 - 0.5*cos(2π·i/(n-1))` for `i = 0..n-1`, with `n = 1` returning
`[1.0]` by the documented convention. -/
def hanningList (n : ℕ) : List ℝ :=
  if n = 1 then [1.0]
  else (List.range n).map fun i : ℕ =>
    0.5 - 0.5 * Real.cos (2 * Real.pi * (i : ℝ) / ((n : ℝ) - 1))

/-- Modelled from the spec: the coefficients of the Blackman window of length
`n`, `w[i] = 0.42 - 0.5*cos(2π·i/(n-1)) + 0.08*cos(4π·i/(n-1))`. -/
def blackmanList (n : ℕ) : List ℝ :=
  (List.range n).map fun i : ℕ =>
    0.42 - 0.5 * Real.cos (2 * Real.pi * (i : ℝ) / ((n : ℝ) - 1))
      + 0.08 * Real.cos (4 * Real.pi * (i : ℝ) / ((n : ℝ) - 1))

/-- Modelled from the spec: the engine `_pydelia.hanning`, raising
`InvalidLength` for `n ≤ 0`. -/
def hanning (n : ℕ) : Except DspError (List ℝ) :=
  if n = 0 then .error .invalidLength else .ok (hanningList n)

/-- Modelled from the spec: the engine `_pydelia.blackman`, raising
`InvalidLength` for `n ≤ 0`. -/
def blackman (n : ℕ) : Except DspError (List ℝ) :=
  if n = 0 then .error .invalidLength else .ok (blackmanList n)

/-- Modelled from the spec: the forward discrete Fourier transform of the
engine's transform core, `X[k] = Σ_{n=0..N-1} x[n] * exp(-2πi·k·n/N)` for
`k = 0..N-1` (the engine transforms arbitrary lengths `N` exactly). -/
def dftList (x : List ℂ) : List ℂ :=
  (List.range x.length).map fun k : ℕ =>
    ∑ n ∈ Finset.range x.length,
      x.getD n 0 * Complex.exp
        (-(2 * (Real.pi : ℂ) * Complex.I * (k : ℂ) * (n : ℂ)) / (x.length : ℂ))

/-- Modelled from the spec: the inverse discrete Fourier transform of the
engine's transform core, `x[n] = (1/N) * Σ_{k=0..N-1} X[k] * exp(+2πi·k·n/N)`. -/
def idftList (X : List ℂ) : List ℂ :=
  (List.range X.length).map fun n : ℕ =>
    (X.length : ℂ)⁻¹ *
      ∑ k ∈ Finset.range X.length,
        X.getD k 0 * Complex.exp
          (2 * (Real.pi : ℂ) * Complex.I * (k : ℂ) * (n : ℂ) / (X.length : ℂ))

/-- Modelled from the spec: the engine `_pydelia.fft` on a real signal, raising
`InvalidLength` on a transform length of `N = 0`. -/
def fft (x : List ℝ) : Except DspError (List ℂ) :=
  if x.length = 0 then .error .invalidLength
  else .ok (dftList (x.map Complex.ofReal))

/-- Modelled from the spec: the engine `_pydelia.ifft`, returning the real part
of the inverse transform (the wrapper types `ifft` as `List[complex] ->
List[float]`), raising `InvalidLength` on `N = 0`. -/
def ifft (X : List ℂ) : Except DspError (List ℝ) :=
  if X.length = 0 then .error .invalidLength
  else .ok ((idftList X).map Complex.re)

/-- Direct O(n·m) linear convolution, written exactly as the spec describes
the reference computation `fft_convolve` must match:
`c[k] = Σ_i a[i]*b[k-i]` for `k = 0..len(a)+len(b)-2`. -/
def directConvolve (a b : List ℝ) : List ℝ :=
  (List.range (a.length + b.length - 1)).map fun k =>
    ∑ i ∈ Finset.range (k + 1), a.getD i 0 * b.getD (k - i) 0

/-- Modelled from the spec: the engine `_pydelia.fft_convolve`: raise
`InvalidArgument` if either input is empty, else zero-pad both inputs to the
linear-convolution length `L = len(a)+len(b)-1` (the engine transforms
arbitrary lengths exactly), transform both, multiply elementwise in the
frequency domain, inverse-transform, and truncate to length `L`. -/
def fft_convolve (a b : List ℝ) : Except DspError (List ℝ) :=
  if a.length = 0 ∨ b.length = 0 then .error .invalidArgument
  else
    let L := a.length + b.length - 1
    let A := dftList ((a ++ List.replicate (L - a.length) 0).map Complex.ofReal)
    let B := dftList ((b ++ List.replicate (L - b.length) 0).map Complex.ofReal)
    let P := (List.range L).map fun k => A.getD k 0 * B.getD k 0
    .ok (((idftList P).map Complex.re).take L)

/-- Modelled from the spec: one STFT frame: extract the frame of
`frameSize` samples starting at `start`, apply the window elementwise, and run
the forward transform. -/
def frameSpec (signal : List ℝ) (frameSize : ℕ) (window : List ℝ) (start : ℕ) :
    List ℂ :=
  dftList ((List.zipWith (fun w s => w * s) window
    ((signal.drop start).take frameSize)).map Complex.ofReal)

/-- Modelled from the spec: the STFT frame loop: for
`start = 0, hopSize, 2*hopSize, ...` while `start + frameSize ≤ len(signal)`,
emit the transformed windowed frame; the last partial frame is dropped.  The
loop is expressed as structural recursion on a fuel bound on the number of
iterations (the loop advances by `hopSize ≥ 1` each step, so
`len(signal) + 1` iterations always suffice). -/
def stftLoop (signal : List ℝ) (frameSize hopSize : ℕ) (window : List ℝ) :
    ℕ → ℕ → List (List ℂ)
  | 0, _ => []
  | fuel + 1, start =>
    if start + frameSize ≤ signal.length then
      frameSpec signal frameSize window start ::
        stftLoop signal frameSize hopSize window fuel (start + hopSize)
    else []

/-- Modelled from the spec: the engine `_pydelia.stft`, taking the signal, the
frame size, the hop size and the analysis window; `InvalidArgument` if
`frameSize ≤ 0` or `hopSize ≤ 0`; a frame size exceeding the signal length
yields an empty result sequence. -/
def stft (signal : List ℝ) (frameSize hopSize : ℕ) (window : List ℝ) :
    Except DspError (List (List ℂ)) :=
  if frameSize = 0 ∨ hopSize = 0 then .error .invalidArgument
  else .ok (stftLoop signal frameSize hopSize window (signal.length + 1) 0)

end Delia

end EngineModel

/-- C10: every exposed wrapper function other than `sine_wave` — `fft`, `ifft`,
`magnitude`, `phase`, `fft_convolve`, `fft_frequencies`,
`decibels_from_magnitude`, `blackman`, `hanning`, `stft` — performs no
validation or transformation: it passes its arguments unchanged to the
identically named `_pydelia` engine function and returns that function's
result unchanged. -/
theorem c10_wrappers_pass_through :
    ∀ (E : Pydelia) (v v2 : List ℝ) (w : List ℂ) (n sr : ℤ),
      fft E v = E.fft v ∧ ifft E w = E.ifft w ∧
      magnitude E w = E.magnitude w ∧ phase E w = E.phase w ∧
      fft_convolve E v v2 = E.fft_convolve v v2 ∧
      fft_frequencies E n sr = E.fft_frequencies n sr ∧
      decibels_from_magnitude E v = E.decibels_from_magnitude v ∧
      blackman E v = E.blackman v ∧ hanning E v = E.hanning v ∧
      stft E v = E.stft v := by
  intro E v v2 w n sr
  exact ⟨rfl, rfl, rfl, rfl, rfl, rfl, rfl, rfl, rfl, rfl⟩

/-- C8: when any of `freq`, `amp`, `sr`, `dur` is omitted from the keyword
arguments of `sine_wave`, the omitted arguments default to `freq=440`,
`amp=1.0`, `sr=44100`, `dur=1.0` before type validation and before the engine
is called: a call is equivalent to a call with the defaulted values supplied
explicitly, and the all-defaults call passes validation and hands exactly
`(440, 1.0, 44100, 1.0)` to the engine. -/
theorem c8_sine_wave_defaults :
    (∀ k : SineKwargs,
      sine_wave_args k =
        sine_wave_args ⟨some (k.freq.getD (.int 440)), some (k.amp.getD (.float 1.0)),
          some (k.sr.getD (.int 44100)), some (k.dur.getD (.float 1.0))⟩)
    ∧ sine_wave_args ⟨none, none, none, none⟩ = .ok ⟨440, 1.0, 44100, 1.0⟩
    ∧ (∀ (R : Type) (engine : ℤ → ℚ → ℤ → ℚ → R),
        sine_wave engine ⟨none, none, none, none⟩ = .ok (engine 440 1.0 44100 1.0)) := by
  refine ⟨fun k => rfl, rfl, fun R engine => rfl⟩

/-- C9: `sine_wave` raises `TypeError` exactly when (after defaulting) `freq`
or `sr` is not a Python int or `amp` or `dur` is not a Python float, and the
wrapper factors as validation followed by the engine call, so whenever it
raises `TypeError` the engine `_pydelia.sine_wave` is never invoked (the
result does not depend on the engine at all). -/
theorem c9_sine_wave_validation :
    ∀ k : SineKwargs,
      (∀ (R : Type) (engine : ℤ → ℚ → ℤ → ℚ → R),
        sine_wave engine k =
          (sine_wave_args k).map fun a => engine a.freq a.amp a.sr a.dur)
      ∧ ((∃ msg, sine_wave_args k = .error (.typeError msg)) ↔
          (¬(k.freq.getD (.int 440)).isInt = true ∨
           ¬(k.amp.getD (.float 1.0)).isFloat = true ∨
           ¬(k.sr.getD (.int 44100)).isInt = true ∨
           ¬(k.dur.getD (.float 1.0)).isFloat = true))
      ∧ (∀ (R : Type) (e1 e2 : ℤ → ℚ → ℤ → ℚ → R) (err : PyErr),
          sine_wave_args k = .error err → sine_wave e1 k = sine_wave e2 k) := by
  intro k
  obtain ⟨fo, ao, so, du⟩ := k
  have hfact : ∀ (R : Type) (engine : ℤ → ℚ → ℤ → ℚ → R),
      sine_wave engine ⟨fo, ao, so, du⟩ =
        (sine_wave_args ⟨fo, ao, so, du⟩).map
          fun a => engine a.freq a.amp a.sr a.dur := by
    intro R engine
    cases hf : fo.getD (.int 440) <;> cases ha : ao.getD (.float 1.0) <;>
      cases hs : so.getD (.int 44100) <;> cases hd : du.getD (.float 1.0) <;>
      simp [sine_wave, sine_wave_args, hf, ha, hs, hd, Except.map]
  refine ⟨hfact, ?_, ?_⟩
  · cases hf : fo.getD (.int 440) <;> cases ha : ao.getD (.float 1.0) <;>
      cases hs : so.getD (.int 44100) <;> cases hd : du.getD (.float 1.0) <;>
      simp [sine_wave_args, hf, ha, hs, hd, PyVal.isInt, PyVal.isFloat]
  · intro R e1 e2 err herr
    rw [hfact R e1, hfact R e2, herr]
    rfl

/-- Witness for C9: with `freq` supplied as a non-int, two different engines
give the same (error) result, so the engine is not consulted. -/
theorem c9_witness :
    sine_wave (fun f _ _ _ => (f, 1)) ⟨some (.str "a"), none, none, none⟩ =
      sine_wave (fun f _ _ _ => (f, 2)) ⟨some (.str "a"), none, none, none⟩ :=
  (c9_sine_wave_validation ⟨some (.str "a"), none, none, none⟩).2.2 _ _ _
    (.typeError "freq must be integer") rfl

/-- C3 counterexample: calling the wrapper `sine_wave` with the finite
non-integer float `freq = 3/2` and all other arguments left at their valid
defaults raises `TypeError` instead of succeeding, for any engine. -/
theorem c3_counterexample :
    sine_wave (R := Unit) (fun _ _ _ _ => ())
      ⟨some (.float (3 / 2)), none, none, none⟩ =
      .error (.typeError "freq must be integer") := rfl

/-- C3 (amended): the exposed `sine_wave` requires `freq` to be a Python int —
any float `freq` raises `TypeError` at the wrapper, whatever the engine; at
the engine level (modelled from the spec) any real `freq` is accepted without
special-casing, the call succeeding whenever the sample rate is positive and
the duration non-negative, and failing with `InvalidArgument` exactly on a
non-positive sample rate or a negative duration. -/
theorem c3_amended :
    (∀ (q : ℚ) (R : Type) (engine : ℤ → ℚ → ℤ → ℚ → R),
      sine_wave engine ⟨some (.float q), none, none, none⟩ =
        .error (.typeError "freq must be integer"))
    ∧ (∀ freq amp sr dur : ℝ, 0 < sr → 0 ≤ dur →
        ∃ xs, Delia.sine_wave freq amp sr dur = .ok xs)
    ∧ (∀ freq amp sr dur : ℝ,
        Delia.sine_wave freq amp sr dur = .error .invalidArgument ↔
          sr ≤ 0 ∨ dur < 0) := by
  refine ⟨fun q R engine => rfl, ?_, ?_⟩
  · intro freq amp sr dur hsr hdur
    refine ⟨(List.range (round (sr * dur)).toNat).map
      (fun n : ℕ => amp * Real.sin (2 * Real.pi * freq * (n : ℝ) / sr)), ?_⟩
    rw [Delia.sine_wave, if_neg (not_le.mpr hsr), if_neg (not_lt.mpr hdur)]
  · intro freq amp sr dur
    constructor
    · intro h
      by_contra hc
      push_neg at hc
      rw [Delia.sine_wave, if_neg (not_le.mpr hc.1), if_neg (not_lt.mpr hc.2)] at h
      cases h
    · intro h
      rcases h with h | h
      · rw [Delia.sine_wave, if_pos h]
      · by_cases hsr : sr ≤ 0
        · rw [Delia.sine_wave, if_pos hsr]
        · rw [Delia.sine_wave, if_neg hsr, if_pos h]

/-- Witness for C3 (amended): a unit sample rate and zero duration are
accepted by the engine, and a zero sample rate is rejected with
`InvalidArgument`. -/
theorem c3_witness :
    (∃ xs, Delia.sine_wave 1 1 1 0 = .ok xs) ∧
      Delia.sine_wave 1 1 0 1 = .error .invalidArgument :=
  ⟨c3_amended.2.1 1 1 1 0 one_pos le_rfl,
    (c3_amended.2.2 1 1 0 1).mpr (Or.inl le_rfl)⟩

/-- C5: the engine `fft` on an empty signal (transform length `N = 0`) raises
`InvalidLength`, and on a length-1 signal it returns the input unchanged (the
trivial transform). -/
theorem c5_fft_edge_cases :
    Delia.fft ([] : List ℝ) = .error .invalidLength ∧
      ∀ x : ℝ, Delia.fft [x] = .ok [Complex.ofReal x] := by
  refine ⟨rfl, fun x => ?_⟩
  rw [Delia.fft, if_neg (by simp)]
  simp [Delia.dftList, List.range_succ, Finset.sum_range_one]

/-- C7: for every `n ≥ 2` every coefficient of `hanning(n)` lies in `[0, 1]`
and every coefficient of `blackman(n)` lies in `[-0.1, 1]` (indeed in
`[0, 1]`), and `hanning(1)` equals `[1.0]`. -/
theorem c7_window_bounds :
    (∀ n : ℕ, 2 ≤ n → ∀ w ∈ Delia.hanningList n, 0 ≤ w ∧ w ≤ 1)
    ∧ (∀ n : ℕ, 2 ≤ n → ∀ w ∈ Delia.blackmanList n, -0.1 ≤ w ∧ w ≤ 1)
    ∧ Delia.hanning 1 = .ok [1.0] := by
  refine ⟨?_, ?_, rfl⟩
  · intro n hn w hw
    rw [Delia.hanningList, if_neg (by omega)] at hw
    obtain ⟨i, _, rfl⟩ := List.mem_map.mp hw
    have h1 := Real.cos_le_one (2 * Real.pi * i / ((n : ℝ) - 1))
    have h2 := Real.neg_one_le_cos (2 * Real.pi * i / ((n : ℝ) - 1))
    constructor <;> nlinarith
  · intro n hn w hw
    rw [Delia.blackmanList] at hw
    obtain ⟨i, _, rfl⟩ := List.mem_map.mp hw
    rw [show (4:ℝ) * Real.pi * i / ((n:ℝ) - 1) =
      2 * (2 * Real.pi * i / ((n:ℝ) - 1)) by ring, Real.cos_two_mul]
    set c := Real.cos (2 * Real.pi * i / ((n : ℝ) - 1)) with hc
    have h1 : c ≤ 1 := Real.cos_le_one _
    have h2 : -1 ≤ c := Real.neg_one_le_cos _
    constructor
    · nlinarith [mul_nonneg (sub_nonneg.mpr h1)
        (show (0:ℝ) ≤ 0.34 - 0.16 * c by nlinarith)]
    · nlinarith [mul_nonneg (show (0:ℝ) ≤ 1 + c by linarith)
        (show (0:ℝ) ≤ 0.66 - 0.16 * c by nlinarith)]

/-- Witness for C7: at `n = 2`, the first Hanning coefficient
`0.5 - 0.5*cos(0) = 0` is within `[0, 1]` and the first Blackman coefficient
`0.42 - 0.5*cos(0) + 0.08*cos(0) = 0` is within `[-0.1, 1]`. -/
theorem c7_witness :
    ((0:ℝ) ≤ 0 ∧ (0:ℝ) ≤ 1) ∧ (-0.1 ≤ (0:ℝ) ∧ (0:ℝ) ≤ 1) :=
  ⟨c7_window_bounds.1 2 (by norm_num) 0 (by norm_num [Delia.hanningList, List.range_succ]),
    c7_window_bounds.2.1 2 (by norm_num) 0
      (by norm_num [Delia.blackmanList, List.range_succ])⟩

/-- C6: for positive sample rate and non-negative duration, the engine
`sine_wave` returns exactly `N = round(sr * dur)` samples with
`x[n] = amp * sin(2π·freq·n/sr)`; in particular
`sine_wave(freq=1, amp=1, sampleRate=4, duration=1)` returns `[0, 1, 0, -1]`
(exactly, in the real-arithmetic model, hence within any tolerance), and a
zero duration returns an empty signal. -/
theorem c6_sine_wave_samples :
    (∀ freq amp sr dur : ℝ, 0 < sr → 0 ≤ dur →
      Delia.sine_wave freq amp sr dur =
        .ok ((List.range (round (sr * dur)).toNat).map
          fun n : ℕ => amp * Real.sin (2 * Real.pi * freq * (n : ℝ) / sr)))
    ∧ Delia.sine_wave 1 1 4 1 = .ok [0, 1, 0, -1]
    ∧ (∀ freq amp sr : ℝ, 0 < sr → Delia.sine_wave freq amp sr 0 = .ok []) := by
  refine ⟨?_, ?_, ?_⟩
  · intro freq amp sr dur hsr hdur
    rw [Delia.sine_wave, if_neg (not_le.mpr hsr), if_neg (not_lt.mpr hdur)]
  · rw [Delia.sine_wave, if_neg (by norm_num), if_neg (by norm_num)]
    have hr4 : round ((4:ℝ) * 1) = (4:ℤ) := by norm_num
    have hr : (round ((4:ℝ) * 1)).toNat = 4 := by rw [hr4]; rfl
    rw [hr]
    norm_num [List.range_succ]
    refine ⟨?_, ?_, ?_⟩
    · rw [show 2 * Real.pi / 4 = Real.pi / 2 by ring, Real.sin_pi_div_two]
    · rw [show 2 * Real.pi * 2 / 4 = Real.pi by ring, Real.sin_pi]
    · rw [show 2 * Real.pi * 3 / 4 = Real.pi / 2 + Real.pi by ring,
        Real.sin_add_pi, Real.sin_pi_div_two]
  · intro freq amp sr hsr
    rw [Delia.sine_wave, if_neg (not_le.mpr hsr), if_neg (by norm_num)]
    norm_num

/-- Witness for C6: the degenerate zero-duration call at sample rate 1
returns the empty signal. -/
theorem c6_witness : Delia.sine_wave 5 2 1 0 = .ok [] :=
  c6_sine_wave_samples.2.2 5 2 1 one_pos

/-- The STFT frame loop enumerates exactly the frame starts
`start, start+hop, ...` with `start + frameSize ≤ len(signal)` (proved by
induction on an upper bound of the remaining signal). -/
lemma stftLoop_eq_map (signal : List ℝ) (fs hs : ℕ) (w : List ℝ) (hhs : 0 < hs) :
    ∀ fuel start, signal.length + 1 - start ≤ fuel →
      Delia.stftLoop signal fs hs w fuel start =
        (List.range (if start + fs ≤ signal.length
            then (signal.length - start - fs) / hs + 1 else 0)).map
          fun f => Delia.frameSpec signal fs w (start + f * hs) := by
  intro fuel
  induction fuel with
  | zero =>
    intro start hle
    rw [if_neg (by omega)]
    rfl
  | succ fuel ih =>
    intro start hle
    simp only [Delia.stftLoop]
    by_cases hc : start + fs ≤ signal.length
    · rw [if_pos hc, if_pos hc, List.range_succ_eq_map, List.map_cons,
        List.map_map]
      congr 1
      · congr 1
        omega
      · rw [ih (start + hs) (by omega)]
        by_cases hc2 : start + hs + fs ≤ signal.length
        · rw [if_pos hc2]
          have hsub : signal.length - (start + hs) - fs =
              signal.length - start - fs - hs := by omega
          have hq : (signal.length - (start + hs) - fs) / hs + 1 =
              (signal.length - start - fs) / hs := by
            rw [hsub, ← Nat.div_eq_sub_div hhs (by omega)]
          rw [hq]
          congr 1
          funext j
          simp only [Function.comp]
          congr 1
          rw [Nat.succ_eq_add_one]
          ring
        · rw [if_neg hc2]
          have hq : (signal.length - start - fs) / hs = 0 :=
            Nat.div_eq_of_lt (by omega)
          rw [hq, List.range_zero, List.map_nil, List.map_nil]
    · rw [if_neg hc, if_neg hc]
      rfl

/-- C4: the engine `stft` takes a signal, a frame size, a hop size and a
window; for every signal with valid frame and hop sizes it produces one
spectrum per frame, at starts `0, hop, 2·hop, ...` while
`start + frameSize ≤ len(signal)` (the trailing partial frame is dropped), so
a signal of length 100 with frame size 20 and hop size 10 yields exactly
`(100-20)/10 + 1 = 9` frames. -/
theorem c4_stft_frames :
    (∀ (signal : List ℝ) (fs hs : ℕ) (w : List ℝ), 0 < fs → 0 < hs →
      Delia.stft signal fs hs w =
        .ok ((List.range (if fs ≤ signal.length
            then (signal.length - fs) / hs + 1 else 0)).map
          fun f => Delia.frameSpec signal fs w (f * hs)))
    ∧ (∀ (signal w : List ℝ), signal.length = 100 →
        ∃ F, Delia.stft signal 20 10 w = .ok F ∧ F.length = 9) := by
  have hmain : ∀ (signal : List ℝ) (fs hs : ℕ) (w : List ℝ), 0 < fs → 0 < hs →
      Delia.stft signal fs hs w =
        .ok ((List.range (if fs ≤ signal.length
            then (signal.length - fs) / hs + 1 else 0)).map
          fun f => Delia.frameSpec signal fs w (f * hs)) := by
    intro signal fs hs w hfs hhs
    rw [Delia.stft, if_neg (by omega),
      stftLoop_eq_map signal fs hs w hhs (signal.length + 1) 0 (by omega)]
    simp only [Nat.zero_add, Nat.sub_zero]
  refine ⟨hmain, ?_⟩
  intro signal w hlen
  refine ⟨_, hmain signal 20 10 w (by norm_num) (by norm_num), ?_⟩
  rw [List.length_map, List.length_range, hlen]
  norm_num

/-- Witness for C4: a concrete length-100 signal with frame size 20 and hop
size 10 yields exactly 9 frames. -/
theorem c4_witness :
    ∃ F, Delia.stft (List.replicate 100 (0:ℝ)) 20 10 [] = .ok F ∧ F.length = 9 :=
  c4_stft_frames.2 (List.replicate 100 0) [] (by simp)

/-- A sum over `0..N-1` equals the sum over `ZMod N` of the same summand. -/
lemma sum_range_zmod {N : ℕ} [NeZero N] {M : Type*} [AddCommMonoid M]
    (g : ZMod N → M) :
    ∑ i ∈ Finset.range N, g (i : ZMod N) = ∑ j : ZMod N, g j := by
  refine Finset.sum_nbij' (fun i => (i : ZMod N)) (fun j => j.val)
    (fun a _ => Finset.mem_univ _)
    (fun b _ => Finset.mem_range.mpr b.val_lt)
    (fun a ha => ZMod.val_cast_of_lt (Finset.mem_range.mp ha))
    (fun b _ => ZMod.natCast_zmod_val b)
    (fun a _ => rfl)

/-- The standard additive character of `ZMod N` at `-(i·k)` is the DFT kernel
`exp(-2πi·k·i/N)`. -/
lemma stdAddChar_neg_mul (N : ℕ) [NeZero N] (i k : ℕ) :
    ZMod.stdAddChar (-((i : ZMod N) * (k : ZMod N))) =
      Complex.exp (-(2 * (Real.pi : ℂ) * Complex.I * (k : ℂ) * (i : ℂ)) / (N : ℂ)) := by
  have h : -((i : ZMod N) * (k : ZMod N)) = (((-(i * k : ℤ)) : ℤ) : ZMod N) := by
    push_cast
    ring
  rw [h, ZMod.stdAddChar_coe]
  congr 1
  push_cast
  ring

/-- The standard additive character of `ZMod N` at `k·n` is the inverse-DFT
kernel `exp(+2πi·k·n/N)`. -/
lemma stdAddChar_mul (N : ℕ) [NeZero N] (k n : ℕ) :
    ZMod.stdAddChar ((k : ZMod N) * (n : ZMod N)) =
      Complex.exp (2 * (Real.pi : ℂ) * Complex.I * (k : ℂ) * (n : ℂ) / (N : ℂ)) := by
  have h : (k : ZMod N) * (n : ZMod N) = (((k * n : ℤ)) : ZMod N) := by
    push_cast
    ring
  rw [h, ZMod.stdAddChar_coe]
  congr 1
  push_cast
  ring

/-- Indexing a map over `List.range`. -/
lemma getD_map_range {α : Type*} (N k : ℕ) (hk : k < N) (f : ℕ → α) (d : α) :
    ((List.range N).map f).getD k d = f k := by
  rw [List.getD_eq_getElem _ d (by simpa using hk), List.getElem_map,
    List.getElem_range]

lemma dftList_length (x : List ℂ) : (Delia.dftList x).length = x.length := by
  rw [Delia.dftList, List.length_map, List.length_range]

lemma idftList_length (X : List ℂ) : (Delia.idftList X).length = X.length := by
  rw [Delia.idftList, List.length_map, List.length_range]

/-- The list-level forward transform agrees with Mathlib's discrete Fourier
transform on `ZMod N` of the corresponding indexed function. -/
lemma dftList_getD {N : ℕ} [NeZero N] (x : List ℂ) (hx : x.length = N)
    (k : ℕ) (hk : k < N) :
    (Delia.dftList x).getD k 0 =
      ZMod.dft (fun j : ZMod N => x.getD j.val 0) (k : ZMod N) := by
  subst hx
  rw [Delia.dftList, getD_map_range _ _ hk]
  rw [ZMod.dft_apply, ← sum_range_zmod
    (fun j : ZMod x.length =>
      ZMod.stdAddChar (-(j * (k : ZMod x.length))) • x.getD j.val 0)]
  refine Finset.sum_congr rfl fun i hi => ?_
  rw [smul_eq_mul, stdAddChar_neg_mul, ZMod.val_cast_of_lt (Finset.mem_range.mp hi),
    mul_comm]

/-- The list-level inverse transform agrees with the inverse of Mathlib's
discrete Fourier transform on `ZMod N`. -/
lemma idftList_getD {N : ℕ} [NeZero N] (X : List ℂ) (hX : X.length = N)
    (n : ℕ) (hn : n < N) :
    (Delia.idftList X).getD n 0 =
      ZMod.dft.symm (fun j : ZMod N => X.getD j.val 0) (n : ZMod N) := by
  subst hX
  rw [Delia.idftList, getD_map_range _ _ hn]
  rw [ZMod.invDFT_apply, smul_eq_mul, ← sum_range_zmod
    (fun j : ZMod X.length =>
      ZMod.stdAddChar (j * (n : ZMod X.length)) • X.getD j.val 0)]
  congr 1
  refine Finset.sum_congr rfl fun k hk => ?_
  rw [smul_eq_mul, stdAddChar_mul, ZMod.val_cast_of_lt (Finset.mem_range.mp hk)]
  exact mul_comm _ _

/-- Fourier inversion for the list-level transforms: the inverse DFT undoes
the forward DFT exactly, for every non-empty complex signal. -/
theorem idftList_dftList (x : List ℂ) (hx : x ≠ []) :
    Delia.idftList (Delia.dftList x) = x := by
  have hN : x.length ≠ 0 := by simpa [List.length_eq_zero] using hx
  haveI : NeZero x.length := ⟨hN⟩
  apply List.ext_getElem
  · simp [idftList_length, dftList_length]
  · intro n h1 h2
    rw [← List.getD_eq_getElem _ 0 h1, ← List.getD_eq_getElem _ 0 h2,
      idftList_getD (N := x.length) _ (dftList_length x) n h2]
    have hPsi : (fun j : ZMod x.length => (Delia.dftList x).getD j.val 0) =
        ZMod.dft (fun j : ZMod x.length => x.getD j.val 0) := by
      funext j
      rw [dftList_getD (N := x.length) x rfl j.val j.val_lt, ZMod.natCast_zmod_val]
    rw [hPsi, LinearEquiv.symm_apply_apply, ZMod.val_cast_of_lt h2]

/-- C1: for every finite real sequence `x` of length at least 1,
`ifft(fft(x))` reconstructs `x` — exactly, in the exact-arithmetic model of
the engine, hence in particular within the spec's `1e-9` relative tolerance
per sample. -/
theorem c1_fft_ifft_roundtrip :
    ∀ x : List ℝ, x ≠ [] → (Delia.fft x).bind Delia.ifft = .ok x := by
  intro x hx
  have hlen : x.length ≠ 0 := by simpa [List.length_eq_zero] using hx
  rw [Delia.fft, if_neg hlen]
  show Delia.ifft (Delia.dftList (x.map Complex.ofReal)) = .ok x
  have hlen2 : ¬ (Delia.dftList (x.map Complex.ofReal)).length = 0 := by
    rw [dftList_length, List.length_map]
    exact hlen
  rw [Delia.ifft, if_neg hlen2,
    idftList_dftList _ (by simpa [List.map_eq_nil_iff] using hx)]
  rw [List.map_map, show Complex.re ∘ Complex.ofReal = id from funext fun a => rfl,
    List.map_id]

/-- Witness for C1: the round trip on the concrete signal `[1, 0]`. -/
theorem c1_witness : (Delia.fft [1, 0]).bind Delia.ifft = .ok [1, 0] :=
  c1_fft_ifft_roundtrip [1, 0] (by simp)

noncomputable section ConvolutionProof

/-- The polynomial `Σ r[i]·Xⁱ` over `ℂ` whose coefficients are the entries of
a real list; evaluation at the DFT kernel points turns padded transforms into
polynomial evaluations. -/
def polyOfList (r : List ℝ) : Polynomial ℂ :=
  ∑ i ∈ Finset.range r.length, Polynomial.C ((r.getD i 0 : ℝ) : ℂ) * Polynomial.X ^ i

lemma conv_length (a b : List ℝ) :
    (Delia.directConvolve a b).length = a.length + b.length - 1 := by
  rw [Delia.directConvolve, List.length_map, List.length_range]

lemma padded_getD (r : List ℝ) (p i : ℕ) :
    ((r ++ List.replicate p (0:ℝ)).map Complex.ofReal).getD i 0 =
      ((r.getD i 0 : ℝ) : ℂ) := by
  by_cases h1 : i < r.length
  · rw [List.getD_eq_getElem _ 0 (by simp only [List.length_map,
      List.length_append, List.length_replicate]; omega), List.getElem_map,
      List.getElem_append_left h1, List.getD_eq_getElem _ 0 h1]
  · by_cases h2 : i < r.length + p
    · rw [List.getD_eq_getElem _ 0 (by simp only [List.length_map,
        List.length_append, List.length_replicate]; omega), List.getElem_map,
        List.getElem_append_right (by omega), List.getElem_replicate,
        List.getD_eq_default _ _ (by omega)]
    · rw [List.getD_eq_default _ _ (by simp only [List.length_map,
        List.length_append, List.length_replicate]; omega),
        List.getD_eq_default _ _ (by omega)]
      simp

lemma eval_polyOfList (r : List ℝ) (z : ℂ) :
    (polyOfList r).eval z =
      ∑ i ∈ Finset.range r.length, ((r.getD i 0 : ℝ) : ℂ) * z ^ i := by
  rw [polyOfList, Polynomial.eval_finset_sum]
  refine Finset.sum_congr rfl fun i _ => ?_
  rw [Polynomial.eval_mul, Polynomial.eval_C, Polynomial.eval_pow,
    Polynomial.eval_X]

lemma coeff_polyOfList (r : List ℝ) (t : ℕ) :
    (polyOfList r).coeff t = ((r.getD t 0 : ℝ) : ℂ) := by
  rw [polyOfList, Polynomial.finset_sum_coeff]
  simp only [Polynomial.coeff_C_mul, Polynomial.coeff_X_pow, mul_ite, mul_one,
    mul_zero]
  rw [Finset.sum_ite_eq (Finset.range r.length) t]
  by_cases ht : t < r.length
  · rw [if_pos (Finset.mem_range.mpr ht)]
  · rw [if_neg (fun hc => ht (Finset.mem_range.mp hc)),
      List.getD_eq_default _ _ (by omega)]
    simp

lemma dftPad_eval (r : List ℝ) (p k N : ℕ) (hN : r.length + p = N) (hk : k < N) :
    (Delia.dftList ((r ++ List.replicate p (0:ℝ)).map Complex.ofReal)).getD k 0 =
      (polyOfList r).eval
        (Complex.exp (-(2 * (Real.pi : ℂ) * Complex.I * (k : ℂ)) / (N : ℂ))) := by
  have hlen : ((r ++ List.replicate p (0:ℝ)).map Complex.ofReal).length = N := by
    simp only [List.length_map, List.length_append, List.length_replicate, hN]
  have hstep : ∀ i : ℕ,
      ((r ++ List.replicate p (0:ℝ)).map Complex.ofReal).getD i 0 *
        Complex.exp (-(2 * (Real.pi : ℂ) * Complex.I * (k : ℂ) * (i : ℂ)) / (N : ℂ)) =
      ((r.getD i 0 : ℝ) : ℂ) *
        Complex.exp (-(2 * (Real.pi : ℂ) * Complex.I * (k : ℂ)) / (N : ℂ)) ^ i := by
    intro i
    rw [padded_getD, ← Complex.exp_nat_mul]
    congr 2
    ring
  rw [Delia.dftList, hlen, getD_map_range _ _ hk, eval_polyOfList]
  trans (∑ i ∈ Finset.range N, ((r.getD i 0 : ℝ) : ℂ) *
    Complex.exp (-(2 * (Real.pi : ℂ) * Complex.I * (k : ℂ)) / (N : ℂ)) ^ i)
  · exact Finset.sum_congr rfl fun i _ => hstep i
  · refine (Finset.sum_subset (Finset.range_subset.mpr (by omega))
      (fun x _ hx => ?_)).symm
    rw [List.getD_eq_default _ _ (by simpa using hx)]
    simp

lemma polyOfList_mul (a b : List ℝ) (ha : a ≠ []) (hb : b ≠ []) :
    polyOfList a * polyOfList b = polyOfList (Delia.directConvolve a b) := by
  have hn : 1 ≤ a.length := List.length_pos.mpr ha
  have hm : 1 ≤ b.length := List.length_pos.mpr hb
  apply Polynomial.ext
  intro t
  rw [Polynomial.coeff_mul, coeff_polyOfList,
    Finset.Nat.sum_antidiagonal_eq_sum_range_succ_mk]
  simp only [coeff_polyOfList]
  by_cases ht : t < a.length + b.length - 1
  · rw [Delia.directConvolve, getD_map_range _ _ ht]
    push_cast
    rfl
  · rw [List.getD_eq_default _ _ (by rw [conv_length]; omega)]
    rw [Complex.ofReal_zero]
    refine Finset.sum_eq_zero fun i hi => ?_
    have hit : i ≤ t := by
      have := Finset.mem_range.mp hi
      omega
    by_cases hia : i < a.length
    · rw [List.getD_eq_default b _ (by omega), Complex.ofReal_zero, mul_zero]
    · rw [List.getD_eq_default a _ (by omega), Complex.ofReal_zero, zero_mul]

/-- C2: for every pair of non-empty real sequences, `fft_convolve(a, b)`
equals the direct O(n·m) linear convolution of `a` and `b` — exactly, in the
exact-arithmetic model of the engine, hence within the spec's `1e-6`
tolerance — and the result has length `len(a)+len(b)-1`; `fft_convolve`
raises `InvalidArgument` when either input is empty. -/
theorem c2_fft_convolve :
    (∀ a b : List ℝ, a ≠ [] → b ≠ [] →
      Delia.fft_convolve a b = .ok (Delia.directConvolve a b) ∧
        (Delia.directConvolve a b).length = a.length + b.length - 1)
    ∧ (∀ b : List ℝ, Delia.fft_convolve [] b = .error .invalidArgument)
    ∧ (∀ a : List ℝ, Delia.fft_convolve a [] = .error .invalidArgument) := by
  refine ⟨?_, fun b => rfl, fun a => ?_⟩
  swap
  · rw [Delia.fft_convolve,
      if_pos (show a.length = 0 ∨ ([] : List ℝ).length = 0 from Or.inr rfl)]
  intro a b ha hb
  have hn : 1 ≤ a.length := List.length_pos.mpr ha
  have hm : 1 ≤ b.length := List.length_pos.mpr hb
  refine ⟨?_, conv_length a b⟩
  rw [Delia.fft_convolve, if_neg (by rw [not_or]; exact ⟨by omega, by omega⟩)]
  dsimp only
  set L := a.length + b.length - 1 with hLdef
  set A := Delia.dftList ((a ++ List.replicate (L - a.length) (0:ℝ)).map Complex.ofReal)
    with hA
  set B := Delia.dftList ((b ++ List.replicate (L - b.length) (0:ℝ)).map Complex.ofReal)
    with hB
  set c := Delia.directConvolve a b with hc
  have hcL : c.length = L := conv_length a b
  have hkey : (List.range L).map (fun k : ℕ => A.getD k 0 * B.getD k 0) =
      Delia.dftList (c.map Complex.ofReal) := by
    apply List.ext_getElem
    · rw [List.length_map, List.length_range, dftList_length, List.length_map, hcL]
    · intro k h1 h2
      have hkL : k < L := by simpa using h1
      rw [← List.getD_eq_getElem _ 0 h1, ← List.getD_eq_getElem _ 0 h2,
        getD_map_range _ _ hkL, hA, hB,
        dftPad_eval a (L - a.length) k L (by omega) hkL,
        dftPad_eval b (L - b.length) k L (by omega) hkL,
        ← Polynomial.eval_mul, polyOfList_mul a b ha hb]
      have hpad := dftPad_eval c 0 k L (by omega) hkL
      rw [List.replicate_zero, List.append_nil] at hpad
      rw [← hc, hpad]
  rw [hkey, idftList_dftList _ (by
    intro hnil
    rw [List.map_eq_nil_iff] at hnil
    rw [hnil] at hcL
    simp at hcL
    omega)]
  rw [List.map_map, show Complex.re ∘ Complex.ofReal = id from funext fun t => rfl,
    List.map_id, ← hcL, List.take_length]

/-- Witness for C2: the convolution theorem applied to the concrete inputs
`[1, 2]` and `[3]`. -/
theorem c2_witness :
    Delia.fft_convolve [1, 2] [3] = .ok (Delia.directConvolve [1, 2] [3]) ∧
      (Delia.directConvolve [1, 2] [3]).length = 2 :=
  (c2_fft_convolve.1 [1, 2] [3] (by simp) (by simp)).imp id
    (fun h => by simpa using h)

end ConvolutionProof

/-- Witness for C5: the trivial transform at the concrete signal `[2]`. -/
theorem c5_witness : Delia.fft [2] = .ok [Complex.ofReal 2] :=
  c5_fft_edge_cases.2 2
